import Mathlib

/-!
Verification of the concordance (similarity) matrix engine of
`mandos/analysis/distances.py`.

The engine (`JPrimeMatrixCalculator`) turns a collection of source-tagged,
confidence-weighted annotation records ("hits") into a labeled similarity
matrix.  Python floats are modelled as real numbers (`math.fsum` as exact
summation), Python exceptions as `none` / `Except.error`, and `NaN` as an
explicit constructor of the result type `JValue`.

The helper utilities `AnalysisUtils.elle` (Confidence Weight Transform),
`AnalysisUtils.weights_of_pairs` (Pairwise Evidence Extractor),
`AnalysisUtils.hit_multidict` and `SimilarityDf` live outside the sources
available here; following the specification they are modelled abstractly:
`elle` and `weights_of_pairs` are parameters (written `elle` and `wop`
below), constrained in each theorem exactly as the specification
constrains them, and `hit_multidict` / the matrix structure are defined
from the specification's words.
-/

open scoped Classical

noncomputable section

namespace Mandos

/-- One evidence record (`mandos.model.hits.AbstractHit`), restricted to the
attributes the engine reads: the entity the hit was found for
(`origin_inchikey`), the evidence channel (`data_source`), and a numeric
confidence. -/
structure AbstractHit where
  origin_inchikey : String
  data_source : String
  confidence : ℝ

/-- Python `dict` lookup on an association list: the first binding for the key
wins (Python dicts never hold duplicate keys, so this is exact). -/
def lookupStr {β : Type} : List (String × β) → String → Option β
  | [], _ => none
  | (k, v) :: rest, key => if k = key then some v else lookupStr rest key

/-- Keys of a Python dict in insertion order: first occurrences kept,
later duplicates dropped.  `seen` accumulates the keys already emitted. -/
def dedupKeysAux (seen : List String) : List String → List String
  | [] => []
  | k :: ks => if k ∈ seen then dedupKeysAux seen ks else k :: dedupKeysAux (k :: seen) ks

/-- Insertion-ordered deduplicated key list of a Python dict built by repeated
insertion. -/
def dedupKeys (l : List String) : List String := dedupKeysAux [] l

/-- Modelled from the spec: `AnalysisUtils.hit_multidict(hits, "origin_inchikey")`
(the utility itself is not among the sources) groups hits into an
insertion-ordered mapping from `origin_inchikey` to the list of hits carrying
that key — "group hits by `origin_identifier`"; entities with zero hits never
appear. -/
def hit_multidict (hits : List AbstractHit) : List (String × List AbstractHit) :=
  (dedupKeys (hits.map (·.origin_inchikey))).map
    (fun k => (k, hits.filter (fun h => h.origin_inchikey = k)))

/-- Value stored in a similarity-matrix cell: either Python's `float("nan")`
(`np.nan`, the "undefined" marker) or an ordinary real number. -/
inductive JValue
  | nan
  | val (x : ℝ)

/-- Embeds `JPrimeMatrixCalculator._wedge`: `math.sqrt(Au.elle(ca) * Au.elle(cb))`,
with the Confidence Weight Transform `elle` as a parameter (modelled from the
spec: a pure map from confidence to non-negative weight, not among the
sources). -/
def wedge (elle : ℝ → ℝ) (ca cb : ℝ) : ℝ :=
  Real.sqrt (elle ca * elle cb)

/-- Embeds `JPrimeMatrixCalculator._vee`:
`Au.elle(ca) + Au.elle(cb) - math.sqrt(Au.elle(ca) * Au.elle(cb))`. -/
def vee (elle : ℝ → ℝ) (ca cb : ℝ) : ℝ :=
  elle ca + elle cb - Real.sqrt (elle ca * elle cb)

/-- Embeds `JPrimeMatrixCalculator._jx`.  The Pairwise Evidence Extractor
`Au.weights_of_pairs` is the parameter `wop` (modelled from the spec: it
returns the matched pairs' confidence values; the matching policy is a
collaborator concern).  Python raises `ZeroDivisionError` when the pair list
is empty (`len(values) == 0`) and when a per-pair division hits `vee = 0`;
both are modelled as `none`.  `math.fsum` is modelled as exact summation. -/
def jx (elle : ℝ → ℝ) (wop : List AbstractHit → List AbstractHit → List (ℝ × ℝ))
    (hits1 hits2 : List AbstractHit) : Option ℝ :=
  if wop hits1 hits2 = [] ∨ ∃ p ∈ wop hits1 hits2, vee elle p.1 p.2 = 0 then none
  else
    some (((wop hits1 hits2).map (fun p => wedge elle p.1 p.2 / vee elle p.1 p.2)).sum /
      ((wop hits1 hits2).length : ℝ))

/-- The source-set intersection computed first in `JPrimeMatrixCalculator._j_prime`:
`{h.data_source for h in hits1}.intersection({h.data_source for h in hits2})`. -/
def sharedSources (hits1 hits2 : List AbstractHit) : Finset String :=
  (hits1.map (·.data_source)).toFinset ∩ (hits2.map (·.data_source)).toFinset

/-- The per-source restriction `[h for h in hits if h.data_source == source]`. -/
def srcHits (hits : List AbstractHit) (s : String) : List AbstractHit :=
  hits.filter (fun h => h.data_source = s)

/-- Embeds `JPrimeMatrixCalculator._j_prime`.  If the source intersection is
empty it returns `np.nan`; otherwise it averages `_jx` over the shared
sources.  As in the source, BOTH arguments passed to `_jx` are filtered from
`hits1` (lines 40-41 of `distances.py`).  An exception raised by any `_jx`
call propagates (`none`); otherwise the mean over the set of shared sources
is returned (set iteration order is immaterial for the exact sum). -/
def j_prime (elle : ℝ → ℝ) (wop : List AbstractHit → List AbstractHit → List (ℝ × ℝ))
    (hits1 hits2 : List AbstractHit) : Option JValue :=
  if sharedSources hits1 hits2 = ∅ then some JValue.nan
  else if ∀ s ∈ sharedSources hits1 hits2,
      (jx elle wop (srcHits hits1 s) (srcHits hits1 s)).isSome then
    some (JValue.val
      ((∑ s ∈ sharedSources hits1 hits2,
          (jx elle wop (srcHits hits1 s) (srcHits hits1 s)).getD 0) /
        ((sharedSources hits1 hits2).card : ℝ)))
  else none

/-- The labeled matrix assembled by `calc`: modelled from the spec ("a labeled
matrix structure addressable by `(entity_identifier, entity_identifier)`") as
the dict-of-dicts `data` that the source hands to `SimilarityDf.from_dict`. -/
def SimilarityMat : Type := List (String × List (String × JValue))

/-- Loop body of `JPrimeMatrixCalculator.calc`:
`for (c1, hits1), (c2, hits2) in pairs: data[c1][c2] = self._j_prime(hits1, hits2)`.
Each step stores `_j_prime(hits1, hits2)` under row `c1`, column `c2`; an
exception from `_j_prime` aborts the loop (`none`).  Because the pair list
`calc` supplies pairs each dict entry with itself and dict keys are distinct,
every row key occurs at most once, so each row is the singleton inner dict. -/
def calcData (elle : ℝ → ℝ) (wop : List AbstractHit → List AbstractHit → List (ℝ × ℝ)) :
    List ((String × List AbstractHit) × (String × List AbstractHit)) → Option SimilarityMat
  | [] => some []
  | (g1, g2) :: rest =>
    match j_prime elle wop g1.2 g2.2, calcData elle wop rest with
    | some v, some m => some ((g1.1, [(g2.1, v)]) :: m)
    | _, _ => none

/-- Embeds `JPrimeMatrixCalculator.calc` (the identifier `calc` is reserved in
Lean): it groups the hits by `origin_inchikey` and iterates
`zip(inchikey_to_hits.items(), inchikey_to_hits.items())` — the dict's item
sequence zipped with itself — filling the dict-of-dicts `data`. -/
def calcMatrix (elle : ℝ → ℝ) (wop : List AbstractHit → List AbstractHit → List (ℝ × ℝ))
    (hits : List AbstractHit) : Option SimilarityMat :=
  calcData elle wop ((hit_multidict hits).zip (hit_multidict hits))

/-- Cell lookup in the assembled matrix: row key, then column key. -/
def cell (m : SimilarityMat) (r c : String) : Option JValue :=
  (lookupStr m r).bind (fun row => lookupStr row c)

/-- Python exceptions relevant to `MatrixCalculator.calc`. -/
inductive PyException
  | typeError
  | notImplementedError

/-- The Python values relevant to `MatrixCalculator.calc`'s body. -/
inductive PyValue
  | notImplemented

/-- Whether the Python value is callable: the `NotImplemented` constant is not. -/
def PyValue.callable : PyValue → Bool
  | .notImplemented => false

/-- Python call semantics: calling a non-callable object raises `TypeError`. -/
def pyCallValue (v : PyValue) : Except PyException PyValue :=
  if v.callable then .ok v else .error .typeError

/-- Embeds `MatrixCalculator.calc`, whose body is `raise NotImplemented()`:
Python first evaluates the call `NotImplemented()`; if that call raises, the
exception propagates; had it returned, raising a value that is not a
`BaseException` instance would itself raise `TypeError`. -/
def matrixCalculatorCalc (hits : List AbstractHit) : Except PyException SimilarityMat :=
  match pyCallValue PyValue.notImplemented with
  | .error e => .error e
  | .ok _ => .error .typeError

/-- A concrete Confidence Weight Transform conforming to the spec of `elle`:
non-negative, monotone non-decreasing, and zero at zero.  Used to instantiate
the abstract theorems on concrete inputs. -/
def elle0 : ℝ → ℝ := fun x => max x 0

/-- A concrete Pairwise Evidence Extractor whose matching policy matches every
cross pair, reporting each pair's two confidences. -/
def wopAll : List AbstractHit → List AbstractHit → List (ℝ × ℝ) :=
  fun h1 h2 => (h1.product h2).map (fun p => (p.1.confidence, p.2.confidence))

/-- A concrete Pairwise Evidence Extractor whose matching policy matches
nothing: every call signals "no overlap" (the empty result the spec allows). -/
def wopNone : List AbstractHit → List AbstractHit → List (ℝ × ℝ) :=
  fun _ _ => []

/-- Entity "A", source "X", confidence 1. -/
def hitA : AbstractHit := ⟨"A", "X", 1⟩

/-- A second hit of entity "A" from source "X", confidence 4. -/
def hitA4 : AbstractHit := ⟨"A", "X", 4⟩

/-- Entity "B", source "X", confidence 1. -/
def hitB : AbstractHit := ⟨"B", "X", 1⟩

/-- Entity "B", source "Y", confidence 1. -/
def hitY : AbstractHit := ⟨"B", "Y", 1⟩

/-! Algebraic helper lemmas about the wedge / vee terms. -/

/-- Arithmetic-geometric mean inequality in the form the wedge bound needs. -/
theorem sqrt_mul_le_half_add {a b : ℝ} (ha : 0 ≤ a) (hb : 0 ≤ b) :
    Real.sqrt (a * b) ≤ (a + b) / 2 := by
  have h2 : Real.sqrt (((a + b) / 2) ^ 2) = (a + b) / 2 := Real.sqrt_sq (by positivity)
  calc Real.sqrt (a * b) ≤ Real.sqrt (((a + b) / 2) ^ 2) :=
      Real.sqrt_le_sqrt (by nlinarith [sq_nonneg (a - b)])
    _ = (a + b) / 2 := h2

theorem wedge_self {elle : ℝ → ℝ} {c : ℝ} (h : 0 ≤ elle c) : wedge elle c c = elle c := by
  unfold wedge
  rw [Real.sqrt_mul_self h]

theorem vee_self {elle : ℝ → ℝ} {c : ℝ} (h : 0 ≤ elle c) : vee elle c c = elle c := by
  unfold vee
  rw [Real.sqrt_mul_self h]
  ring

theorem ratio_self {elle : ℝ → ℝ} {c : ℝ} (h : 0 < elle c) :
    wedge elle c c / vee elle c c = 1 := by
  rw [wedge_self h.le, vee_self h.le, div_self h.ne']

/-! Evaluation lemmas for the concrete instances. -/

theorem elle0_nonneg (x : ℝ) : 0 ≤ elle0 x := le_max_right x 0

theorem elle0_zero : elle0 0 = 0 := by norm_num [elle0]

theorem elle0_one : elle0 1 = 1 := by norm_num [elle0]

theorem elle0_four : elle0 4 = 4 := by norm_num [elle0]

theorem wedge_e0_one : wedge elle0 1 1 = 1 := by
  rw [wedge_self (elle0_nonneg 1), elle0_one]

theorem vee_e0_one : vee elle0 1 1 = 1 := by
  rw [vee_self (elle0_nonneg 1), elle0_one]

theorem wedge_e0_four : wedge elle0 4 4 = 4 := by
  rw [wedge_self (elle0_nonneg 4), elle0_four]

theorem vee_e0_four : vee elle0 4 4 = 4 := by
  rw [vee_self (elle0_nonneg 4), elle0_four]

theorem sqrt_four : Real.sqrt 4 = 2 := by
  rw [show (4 : ℝ) = 2 * 2 by norm_num, Real.sqrt_mul_self (by norm_num)]

theorem wedge_e0_14 : wedge elle0 1 4 = 2 := by
  unfold wedge
  rw [elle0_one, elle0_four, one_mul, sqrt_four]

theorem vee_e0_14 : vee elle0 1 4 = 3 := by
  unfold vee
  rw [elle0_one, elle0_four, one_mul, sqrt_four]
  norm_num

theorem wedge_e0_41 : wedge elle0 4 1 = 2 := by
  unfold wedge
  rw [elle0_one, elle0_four, mul_one, sqrt_four]

theorem vee_e0_41 : vee elle0 4 1 = 3 := by
  unfold vee
  rw [elle0_one, elle0_four, mul_one, sqrt_four]
  norm_num

/-! Evaluation helpers for `jx` and `j_prime`. -/

/-- When the extractor returns exactly one matched pair with a nonzero
normalizer, `jx` returns that pair's score. -/
theorem jx_pair {elle : ℝ → ℝ} {wop : List AbstractHit → List AbstractHit → List (ℝ × ℝ)}
    {h1 h2 : List AbstractHit} {a b : ℝ}
    (hw : wop h1 h2 = [(a, b)]) (hv : vee elle a b ≠ 0) :
    jx elle wop h1 h2 = some (wedge elle a b / vee elle a b) := by
  unfold jx
  rw [hw, if_neg]
  · simp
  · rintro (h | ⟨p, hp, hpv⟩)
    · exact List.cons_ne_nil _ _ h
    · rw [List.mem_singleton] at hp
      subst hp
      exact hv hpv

/-- When the source intersection is a single source whose `jx` value is `r`,
`_j_prime` returns `r`. -/
theorem j_prime_single_source {elle : ℝ → ℝ}
    {wop : List AbstractHit → List AbstractHit → List (ℝ × ℝ)}
    {hits1 hits2 : List AbstractHit} {s : String} {r : ℝ}
    (hs : sharedSources hits1 hits2 = {s})
    (hjx : jx elle wop (srcHits hits1 s) (srcHits hits1 s) = some r) :
    j_prime elle wop hits1 hits2 = some (JValue.val r) := by
  unfold j_prime
  rw [hs, if_neg (by simp), if_pos]
  · rw [Finset.sum_singleton, hjx, Finset.card_singleton]
    norm_num
  · intro t ht
    rw [Finset.mem_singleton] at ht
    subst ht
    rw [hjx]
    rfl

theorem shared_sources_AB : sharedSources [hitA] [hitB] = {"X"} := by
  simp [sharedSources, hitA, hitB]

theorem srcHits_A : srcHits [hitA] "X" = [hitA] := by
  simp [srcHits, hitA]

theorem wopAll_AA : wopAll [hitA] [hitA] = [(1, 1)] := by
  simp [wopAll, List.product, hitA]

theorem jx_AA_e0 : jx elle0 wopAll [hitA] [hitA] = some 1 := by
  rw [jx_pair wopAll_AA (by rw [vee_e0_one]; norm_num), wedge_e0_one, vee_e0_one]
  norm_num

theorem jp_AB_e0 : j_prime elle0 wopAll [hitA] [hitB] = some (JValue.val 1) :=
  j_prime_single_source shared_sources_AB (by rw [srcHits_A]; exact jx_AA_e0)

/-- C2, counterexample: with the spec-conforming transform `elle0`
(non-negative, monotone, zero at zero) and confidences `ca = cb = 1` with
`elle0 1 = 1 > 0`, the per-pair score `wedge/vee` equals 1, not 0.5, and the
claimed one-shared-source scenario yields concordance 1, not 0.5: the code's
`_vee(c, c)` equals `elle(c)`, not `2*elle(c)`. -/
theorem c2_counterexample :
    0 < elle0 1
    ∧ wedge elle0 1 1 / vee elle0 1 1 ≠ 1 / 2
    ∧ j_prime elle0 wopAll [hitA] [hitB] ≠ some (JValue.val (1 / 2)) := by
  refine ⟨by rw [elle0_one]; norm_num, ?_, ?_⟩
  · rw [wedge_e0_one, vee_e0_one]
    norm_num
  · intro h
    rw [jp_AB_e0] at h
    simp only [Option.some.injEq, JValue.val.injEq] at h
    norm_num at h

/-- C2, amended: for every confidence pair with `ca == cb` and `elle(ca) > 0`
the per-pair score `wedge/vee` equals exactly 1 (because `vee(c,c) = elle(c)`),
and in the scenario where entity A's single source-"X" hit of confidence 1 is
matched against itself (the code filters `hits1` on both sides) while "X" is
the only source shared with entity B, the final concordance is 1. -/
theorem c2_saturation_amended (elle : ℝ → ℝ)
    (wop : List AbstractHit → List AbstractHit → List (ℝ × ℝ))
    (h1pos : 0 < elle 1) (hwA : wop [hitA] [hitA] = [(1, 1)]) :
    (∀ ca cb : ℝ, ca = cb → 0 < elle ca → wedge elle ca cb / vee elle ca cb = 1)
    ∧ j_prime elle wop [hitA] [hitB] = some (JValue.val 1) := by
  constructor
  · rintro ca cb rfl h
    exact ratio_self h
  · have hv : vee elle 1 1 ≠ 0 := by
      rw [vee_self h1pos.le]
      exact h1pos.ne'
    have hjx : jx elle wop [hitA] [hitA] = some 1 := by
      rw [jx_pair hwA hv, ratio_self h1pos]
    exact j_prime_single_source shared_sources_AB (by rw [srcHits_A]; exact hjx)

/-- Witness for C2 (amended), instantiated at `elle0` and the all-pairs
matching policy. -/
theorem c2_saturation_amended_witness :
    wedge elle0 1 1 / vee elle0 1 1 = 1
    ∧ j_prime elle0 wopAll [hitA] [hitB] = some (JValue.val 1) := by
  have h := c2_saturation_amended elle0 wopAll (by rw [elle0_one]; norm_num) wopAll_AA
  exact ⟨h.1 1 1 rfl (by rw [elle0_one]; norm_num), h.2⟩

/-- C3, counterexample: at `ca = cb = 4` (both positive, with positive weight
under the spec-conforming transform `elle0`), the per-pair score is 1, which
violates the claimed upper bound 0.5. -/
theorem c3_counterexample :
    (0 : ℝ) < 4 ∧ 0 < elle0 4 ∧ ¬ wedge elle0 4 4 / vee elle0 4 4 ≤ 1 / 2 := by
  refine ⟨by norm_num, by rw [elle0_four]; norm_num, ?_⟩
  rw [wedge_e0_four, vee_e0_four]
  norm_num

/-- C3, amended: for every confidence pair whose two weights are positive, the
per-pair score `wedge/vee` lies in the closed interval [0, 1] (the correct
bound; 0.5 is exceeded, e.g. on the diagonal). -/
theorem c3_pair_score_bounds_amended (elle : ℝ → ℝ) (ca cb : ℝ)
    (ha : 0 < elle ca) (hb : 0 < elle cb) :
    0 ≤ wedge elle ca cb / vee elle ca cb ∧ wedge elle ca cb / vee elle ca cb ≤ 1 := by
  have ham : wedge elle ca cb ≤ (elle ca + elle cb) / 2 := sqrt_mul_le_half_add ha.le hb.le
  have hw0 : 0 ≤ wedge elle ca cb := Real.sqrt_nonneg _
  have hv : 0 < vee elle ca cb := by
    unfold vee
    unfold wedge at ham
    linarith
  refine ⟨div_nonneg hw0 hv.le, ?_⟩
  rw [div_le_one hv]
  unfold vee wedge
  unfold wedge at ham
  linarith

/-- Witness for C3 (amended) at `elle0` and `ca = cb = 1`. -/
theorem c3_pair_score_bounds_amended_witness :
    0 ≤ wedge elle0 1 1 / vee elle0 1 1 ∧ wedge elle0 1 1 / vee elle0 1 1 ≤ 1 :=
  c3_pair_score_bounds_amended elle0 1 1 (by rw [elle0_one]; norm_num)
    (by rw [elle0_one]; norm_num)

/-- C4: `_j_prime` returns `NaN` when the two hit collections share no data
source, returns `NaN` only in that case, and returns an ordinary number
whenever at least one source is shared and every shared source's `_jx` value
is defined (well-formed inputs). -/
theorem c4_nan_iff_no_shared_source (elle : ℝ → ℝ)
    (wop : List AbstractHit → List AbstractHit → List (ℝ × ℝ))
    (hits1 hits2 : List AbstractHit) :
    (sharedSources hits1 hits2 = ∅ → j_prime elle wop hits1 hits2 = some JValue.nan)
    ∧ (j_prime elle wop hits1 hits2 = some JValue.nan → sharedSources hits1 hits2 = ∅)
    ∧ (sharedSources hits1 hits2 ≠ ∅ →
        (∀ s ∈ sharedSources hits1 hits2,
          (jx elle wop (srcHits hits1 s) (srcHits hits1 s)).isSome) →
        ∃ x : ℝ, j_prime elle wop hits1 hits2 = some (JValue.val x)) := by
  refine ⟨fun h => by unfold j_prime; rw [if_pos h], fun h => ?_, fun hne hsome => ?_⟩
  · by_contra hne
    unfold j_prime at h
    rw [if_neg hne] at h
    by_cases hs : ∀ s ∈ sharedSources hits1 hits2,
        (jx elle wop (srcHits hits1 s) (srcHits hits1 s)).isSome
    · rw [if_pos hs] at h
      exact JValue.noConfusion (Option.some.inj h)
    · rw [if_neg hs] at h
      exact Option.noConfusion h
  · unfold j_prime
    rw [if_neg hne, if_pos hsome]
    exact ⟨_, rfl⟩

/-- Witness for C4: entities sharing no source get `NaN`; entities sharing
source "X" with a defined per-source value get a number. -/
theorem c4_nan_iff_no_shared_source_witness :
    j_prime elle0 wopAll [hitA] [hitY] = some JValue.nan
    ∧ ∃ x : ℝ, j_prime elle0 wopAll [hitA] [hitB] = some (JValue.val x) := by
  refine ⟨(c4_nan_iff_no_shared_source elle0 wopAll [hitA] [hitY]).1 ?_,
          (c4_nan_iff_no_shared_source elle0 wopAll [hitA] [hitB]).2.2 ?_ ?_⟩
  · simp [sharedSources, hitA, hitY]
  · rw [shared_sources_AB]
    simp
  · rw [shared_sources_AB]
    intro s hs
    rw [Finset.mem_singleton] at hs
    subst hs
    rw [srcHits_A, jx_AA_e0]
    rfl

/-- C5: evaluation at the failing input.  Entities A and B nominally share
source "X", yet the matching policy yields zero matched pairs; the code does
not exclude the source: `_jx` reaches its mean with a zero pair count (the
division by `len(values) == 0`, modelled as `none`) and `_j_prime` propagates
the error instead of dropping the contributionless source. -/
theorem c5_zero_pair_source_not_excluded :
    sharedSources [hitA] [hitB] = {"X"}
    ∧ wopNone [hitA] [hitA] = []
    ∧ jx elle0 wopNone [hitA] [hitA] = none
    ∧ j_prime elle0 wopNone [hitA] [hitB] = none := by
  have hjx : ∀ h1 h2 : List AbstractHit, jx elle0 wopNone h1 h2 = none := by
    intro h1 h2
    unfold jx
    have hcond : wopNone h1 h2 = [] ∨ ∃ p ∈ wopNone h1 h2, vee elle0 p.1 p.2 = 0 :=
      Or.inl rfl
    rw [if_pos hcond]
  refine ⟨shared_sources_AB, rfl, hjx [hitA] [hitA], ?_⟩
  unfold j_prime
  rw [shared_sources_AB, if_neg (by simp), if_neg]
  intro hall
  have h := hall "X" (Finset.mem_singleton_self "X")
  rw [srcHits_A, hjx] at h
  simp at h

/-- C9: the second argument of `_j_prime` influences the result only through
its set of `data_source` values — the `hits2` parameter is read only in the
source-set intersection. -/
theorem c9_second_argument_sources_only (elle : ℝ → ℝ)
    (wop : List AbstractHit → List AbstractHit → List (ℝ × ℝ))
    (hits1 hits2 hits2' : List AbstractHit)
    (hs : (hits2.map (·.data_source)).toFinset = (hits2'.map (·.data_source)).toFinset) :
    j_prime elle wop hits1 hits2 = j_prime elle wop hits1 hits2' := by
  unfold j_prime sharedSources
  rw [hs]

/-- Witness for C9: replacing B's single confidence-1 hit by two hits of
different confidences (and a different origin) from the same source leaves the
score unchanged. -/
theorem c9_second_argument_sources_only_witness :
    j_prime elle0 wopAll [hitA] [hitB] = j_prime elle0 wopAll [hitA] [hitB, hitA4] :=
  c9_second_argument_sources_only elle0 wopAll [hitA] [hitB] [hitB, hitA4]
    (by simp [hitB, hitA4])

/-- C7: the wedge term is symmetric, vanishes as soon as either weight
vanishes, and is bounded above by the arithmetic mean of the two weights,
for any Confidence Weight Transform that is non-negative with `elle(0) = 0`
as the spec requires. -/
theorem c7_wedge_properties (elle : ℝ → ℝ) (hnn : ∀ x, 0 ≤ elle x) (hz : elle 0 = 0) :
    (∀ ca cb, wedge elle ca cb = wedge elle cb ca)
    ∧ (∀ ca cb, elle ca = 0 ∨ elle cb = 0 → wedge elle ca cb = 0)
    ∧ (∀ ca cb, wedge elle ca cb ≤ (elle ca + elle cb) / 2) := by
  refine ⟨fun ca cb => by unfold wedge; rw [mul_comm], fun ca cb h => ?_,
    fun ca cb => sqrt_mul_le_half_add (hnn ca) (hnn cb)⟩
  unfold wedge
  rcases h with h | h <;> rw [h] <;> simp

/-- Witness for C7 at `elle0` (which satisfies both side conditions). -/
theorem c7_wedge_properties_witness :
    wedge elle0 1 4 = wedge elle0 4 1
    ∧ wedge elle0 0 1 = 0
    ∧ wedge elle0 1 4 ≤ (elle0 1 + elle0 4) / 2 := by
  have h := c7_wedge_properties elle0 elle0_nonneg elle0_zero
  exact ⟨h.1 1 4, h.2.1 0 1 (Or.inl elle0_zero), h.2.2 1 4⟩

/-! Evaluation helpers on the two-hit entity A used for C6. -/

theorem wopAll_A2 :
    wopAll [hitA, hitA4] [hitA, hitA4] = [(1, 1), (1, 4), (4, 1), (4, 4)] := by
  simp [wopAll, List.product, hitA, hitA4]

theorem jx_A2_e0 : jx elle0 wopAll [hitA, hitA4] [hitA, hitA4] = some (5 / 6) := by
  unfold jx
  rw [wopAll_A2, if_neg]
  · simp only [List.map_cons, List.map_nil, List.sum_cons, List.sum_nil, List.length_cons,
      List.length_nil]
    rw [wedge_e0_one, vee_e0_one, wedge_e0_14, vee_e0_14, wedge_e0_41, vee_e0_41,
      wedge_e0_four, vee_e0_four]
    norm_num
  · rintro (h | ⟨p, hp, hpv⟩)
    · exact List.cons_ne_nil _ _ h
    · simp only [List.mem_cons, List.not_mem_nil, or_false] at hp
      rcases hp with rfl | rfl | rfl | rfl
      · rw [vee_e0_one] at hpv
        norm_num at hpv
      · rw [vee_e0_14] at hpv
        norm_num at hpv
      · rw [vee_e0_41] at hpv
        norm_num at hpv
      · rw [vee_e0_four] at hpv
        norm_num at hpv

theorem srcHits_A2 : srcHits [hitA, hitA4] "X" = [hitA, hitA4] := by
  simp [srcHits, hitA, hitA4]

theorem shared_A2B : sharedSources [hitA, hitA4] [hitB] = {"X"} := by
  simp [sharedSources, hitA, hitA4, hitB]

theorem shared_BA2 : sharedSources [hitB] [hitA, hitA4] = {"X"} := by
  simp [sharedSources, hitA, hitA4, hitB]

theorem srcHits_B : srcHits [hitB] "X" = [hitB] := by
  simp [srcHits, hitB]

theorem wopAll_BB : wopAll [hitB] [hitB] = [(1, 1)] := by
  simp [wopAll, List.product, hitB]

theorem jx_BB_e0 : jx elle0 wopAll [hitB] [hitB] = some 1 := by
  rw [jx_pair wopAll_BB (by rw [vee_e0_one]; norm_num), wedge_e0_one, vee_e0_one]
  norm_num

theorem jp_A2B_e0 : j_prime elle0 wopAll [hitA, hitA4] [hitB] = some (JValue.val (5 / 6)) :=
  j_prime_single_source shared_A2B (by rw [srcHits_A2]; exact jx_A2_e0)

theorem jp_BA2_e0 : j_prime elle0 wopAll [hitB] [hitA, hitA4] = some (JValue.val 1) :=
  j_prime_single_source shared_BA2 (by rw [srcHits_B]; exact jx_BB_e0)

/-- C6: evaluation at the failing input.  Entity A has two source-"X" hits
(confidences 1 and 4), entity B one source-"X" hit (confidence 1); the
matching policy matches every cross pair and is symmetric (the reversed call
returns exactly the swapped pairs), and `elle0` conforms to the spec — yet
`_j_prime(A, B) = 5/6` while `_j_prime(B, A) = 1`, because `_jx` is fed
`hits1` on both sides (`distances.py` lines 40-41). -/
theorem c6_j_prime_asymmetric :
    wopAll [hitB] [hitA, hitA4] = (wopAll [hitA, hitA4] [hitB]).map Prod.swap
    ∧ j_prime elle0 wopAll [hitA, hitA4] [hitB] = some (JValue.val (5 / 6))
    ∧ j_prime elle0 wopAll [hitB] [hitA, hitA4] = some (JValue.val 1)
    ∧ j_prime elle0 wopAll [hitA, hitA4] [hitB] ≠ j_prime elle0 wopAll [hitB] [hitA, hitA4] := by
  refine ⟨by simp [wopAll, List.product, hitA, hitA4, hitB], jp_A2B_e0, jp_BA2_e0, ?_⟩
  rw [jp_A2B_e0, jp_BA2_e0]
  intro h
  simp only [Option.some.injEq, JValue.val.injEq] at h
  norm_num at h

/-- C10: calling `calc` on the abstract base class `MatrixCalculator` raises
`TypeError` for every input — the body `raise NotImplemented()` calls the
non-callable `NotImplemented` constant — rather than raising
`NotImplementedError` or returning a matrix. -/
theorem c10_abstract_calc_raises_type_error (hits : List AbstractHit) :
    matrixCalculatorCalc hits = Except.error PyException.typeError
    ∧ matrixCalculatorCalc hits ≠ Except.error PyException.notImplementedError
    ∧ ∀ m : SimilarityMat, matrixCalculatorCalc hits ≠ Except.ok m := by
  refine ⟨rfl, fun h => ?_, fun m h => ?_⟩
  · exact PyException.noConfusion (Except.error.inj h)
  · exact Except.noConfusion h

/-- Witness for C10 at a concrete input. -/
theorem c10_abstract_calc_raises_type_error_witness :
    matrixCalculatorCalc [hitA] = Except.error PyException.typeError :=
  (c10_abstract_calc_raises_type_error [hitA]).1

/-! Reduction lemmas for the `calc` loop. -/

theorem calcData_cons_none1 {elle : ℝ → ℝ}
    {wop : List AbstractHit → List AbstractHit → List (ℝ × ℝ)}
    {g1 g2 : String × List AbstractHit}
    {rest : List ((String × List AbstractHit) × (String × List AbstractHit))}
    (h : j_prime elle wop g1.2 g2.2 = none) :
    calcData elle wop ((g1, g2) :: rest) = none := by
  unfold calcData
  rw [h]

theorem calcData_cons_none2 {elle : ℝ → ℝ}
    {wop : List AbstractHit → List AbstractHit → List (ℝ × ℝ)}
    {g1 g2 : String × List AbstractHit}
    {rest : List ((String × List AbstractHit) × (String × List AbstractHit))}
    (h : calcData elle wop rest = none) :
    calcData elle wop ((g1, g2) :: rest) = none := by
  unfold calcData
  rw [h]
  cases j_prime elle wop g1.2 g2.2 <;> rfl

theorem calcData_cons_some {elle : ℝ → ℝ}
    {wop : List AbstractHit → List AbstractHit → List (ℝ × ℝ)}
    {g1 g2 : String × List AbstractHit}
    {rest : List ((String × List AbstractHit) × (String × List AbstractHit))}
    {v : JValue} {m : SimilarityMat}
    (h1 : j_prime elle wop g1.2 g2.2 = some v) (h2 : calcData elle wop rest = some m) :
    calcData elle wop ((g1, g2) :: rest) = some ((g1.1, [(g2.1, v)]) :: m) := by
  unfold calcData
  rw [h1, h2]

/-! Evaluation of the assembled matrix on the two-entity input (for C1). -/

theorem hit_multidict_AB : hit_multidict [hitA, hitB] = [("A", [hitA]), ("B", [hitB])] := by
  simp [hit_multidict, dedupKeys, dedupKeysAux, hitA, hitB]

theorem shared_AA : sharedSources [hitA] [hitA] = {"X"} := by
  simp [sharedSources, hitA]

theorem shared_BB : sharedSources [hitB] [hitB] = {"X"} := by
  simp [sharedSources, hitB]

theorem jp_AA_e0 : j_prime elle0 wopAll [hitA] [hitA] = some (JValue.val 1) :=
  j_prime_single_source shared_AA (by rw [srcHits_A]; exact jx_AA_e0)

theorem jp_BB_e0 : j_prime elle0 wopAll [hitB] [hitB] = some (JValue.val 1) :=
  j_prime_single_source shared_BB (by rw [srcHits_B]; exact jx_BB_e0)

theorem calcMatrix_AB :
    calcMatrix elle0 wopAll [hitA, hitB] =
      some [("A", [("A", JValue.val 1)]), ("B", [("B", JValue.val 1)])] := by
  unfold calcMatrix
  rw [hit_multidict_AB]
  show calcData elle0 wopAll
      [(("A", [hitA]), ("A", [hitA])), (("B", [hitB]), ("B", [hitB]))] = _
  rw [calcData_cons_some jp_AA_e0
    (calcData_cons_some jp_BB_e0 (show calcData elle0 wopAll [] = some [] from rfl))]

/-- C1: evaluation at the failing input.  For hits of two entities A and B
(each with one source-"X" hit of confidence 1), `calc` pairs the grouped dict
with itself via `zip(items, items)`, so only the diagonal cells (A,A) and
(B,B) are ever written; the cell (A,B) — which per the claim should hold
`_j_prime(A hits, B hits) = 1` — is absent from the assembled matrix. -/
theorem c1_calc_diagonal_only :
    calcMatrix elle0 wopAll [hitA, hitB] =
      some [("A", [("A", JValue.val 1)]), ("B", [("B", JValue.val 1)])]
    ∧ cell [("A", [("A", JValue.val 1)]), ("B", [("B", JValue.val 1)])] "A" "A" =
        some (JValue.val 1)
    ∧ cell [("A", [("A", JValue.val 1)]), ("B", [("B", JValue.val 1)])] "B" "B" =
        some (JValue.val 1)
    ∧ cell [("A", [("A", JValue.val 1)]), ("B", [("B", JValue.val 1)])] "A" "B" = none
    ∧ cell [("A", [("A", JValue.val 1)]), ("B", [("B", JValue.val 1)])] "B" "A" = none
    ∧ j_prime elle0 wopAll [hitA] [hitB] = some (JValue.val 1) := by
  refine ⟨calcMatrix_AB, ?_, ?_, ?_, ?_, jp_AB_e0⟩ <;> simp [cell, lookupStr]

/-! Permutation invariance machinery (for C8). -/

theorem jx_perm (elle : ℝ → ℝ) (wop : List AbstractHit → List AbstractHit → List (ℝ × ℝ))
    (hwop : ∀ l1 l2 l1' l2' : List AbstractHit,
      l1.Perm l1' → l2.Perm l2' → (wop l1 l2).Perm (wop l1' l2'))
    {h1 h1' h2 h2' : List AbstractHit} (p1 : h1.Perm h1') (p2 : h2.Perm h2') :
    jx elle wop h1 h2 = jx elle wop h1' h2' := by
  have hp : (wop h1 h2).Perm (wop h1' h2') := hwop _ _ _ _ p1 p2
  have hciff : (wop h1 h2 = [] ∨ ∃ p ∈ wop h1 h2, vee elle p.1 p.2 = 0)
      ↔ (wop h1' h2' = [] ∨ ∃ p ∈ wop h1' h2', vee elle p.1 p.2 = 0) := by
    constructor
    · rintro (hnil | ⟨p, hmem, hv⟩)
      · left
        rw [hnil] at hp
        exact hp.symm.eq_nil
      · exact Or.inr ⟨p, hp.mem_iff.mp hmem, hv⟩
    · rintro (hnil | ⟨p, hmem, hv⟩)
      · left
        rw [hnil] at hp
        exact hp.eq_nil
      · exact Or.inr ⟨p, hp.mem_iff.mpr hmem, hv⟩
  unfold jx
  by_cases hc : wop h1 h2 = [] ∨ ∃ p ∈ wop h1 h2, vee elle p.1 p.2 = 0
  · rw [if_pos hc, if_pos (hciff.mp hc)]
  · rw [if_neg hc, if_neg (fun h => hc (hciff.mpr h))]
    rw [(hp.map (fun p => wedge elle p.1 p.2 / vee elle p.1 p.2)).sum_eq, hp.length_eq]

theorem sharedSources_perm {h1 h1' h2 h2' : List AbstractHit}
    (p1 : h1.Perm h1') (p2 : h2.Perm h2') :
    sharedSources h1 h2 = sharedSources h1' h2' := by
  unfold sharedSources
  rw [List.toFinset_eq_of_perm _ _ (p1.map _), List.toFinset_eq_of_perm _ _ (p2.map _)]

theorem j_prime_perm (elle : ℝ → ℝ)
    (wop : List AbstractHit → List AbstractHit → List (ℝ × ℝ))
    (hwop : ∀ l1 l2 l1' l2' : List AbstractHit,
      l1.Perm l1' → l2.Perm l2' → (wop l1 l2).Perm (wop l1' l2'))
    {h1 h1' h2 h2' : List AbstractHit} (p1 : h1.Perm h1') (p2 : h2.Perm h2') :
    j_prime elle wop h1 h2 = j_prime elle wop h1' h2' := by
  have hs : sharedSources h1 h2 = sharedSources h1' h2' := sharedSources_perm p1 p2
  have hjx : ∀ s, jx elle wop (srcHits h1 s) (srcHits h1 s)
      = jx elle wop (srcHits h1' s) (srcHits h1' s) :=
    fun s => jx_perm elle wop hwop (p1.filter _) (p1.filter _)
  unfold j_prime
  rw [hs]
  simp only [hjx]

theorem mem_dedupKeysAux {a : String} :
    ∀ {l seen : List String}, a ∈ dedupKeysAux seen l ↔ a ∈ l ∧ a ∉ seen := by
  intro l
  induction l with
  | nil => intro seen; simp [dedupKeysAux]
  | cons k ks ih =>
    intro seen
    unfold dedupKeysAux
    by_cases hk : k ∈ seen
    · rw [if_pos hk, ih]
      constructor
      · rintro ⟨h1, h2⟩
        exact ⟨List.mem_cons_of_mem _ h1, h2⟩
      · rintro ⟨h1, h2⟩
        rcases List.mem_cons.mp h1 with rfl | h1
        · exact absurd hk h2
        · exact ⟨h1, h2⟩
    · rw [if_neg hk]
      simp only [List.mem_cons, ih]
      constructor
      · rintro (rfl | ⟨h1, h2⟩)
        · exact ⟨Or.inl rfl, hk⟩
        · exact ⟨Or.inr h1, fun ha => h2 (Or.inr ha)⟩
      · rintro ⟨rfl | h1, h2⟩
        · exact Or.inl rfl
        · by_cases hak : a = k
          · exact Or.inl hak
          · exact Or.inr ⟨h1, fun ha => ha.elim hak h2⟩

theorem mem_dedupKeys {l : List String} {a : String} : a ∈ dedupKeys l ↔ a ∈ l := by
  unfold dedupKeys
  rw [mem_dedupKeysAux]
  simp

theorem cell_cons {key : String} {row : List (String × JValue)} {m : SimilarityMat}
    (r c : String) :
    cell ((key, row) :: m) r c = if key = r then lookupStr row c else cell m r c := by
  show (if key = r then some row else lookupStr m r).bind (fun row => lookupStr row c)
      = if key = r then lookupStr row c else cell m r c
  by_cases h : key = r
  · rw [if_pos h, if_pos h, Option.some_bind]
  · rw [if_neg h, if_neg h]
    rfl

theorem lookupStr_singleton {key c : String} {v : JValue} :
    lookupStr [(key, v)] c = if key = c then some v else none := rfl

/-- Cell-level characterization of the `calc` loop over an arbitrary key list
paired with itself: the loop succeeds iff every key's diagonal `_j_prime`
value is defined, and then the assembled dict holds exactly the diagonal. -/
theorem calcData_char (elle : ℝ → ℝ)
    (wop : List AbstractHit → List AbstractHit → List (ℝ × ℝ))
    (grp : String → List AbstractHit) (r c : String) :
    ∀ keys : List String,
      (calcData elle wop
          ((keys.map (fun k => (k, grp k))).zip (keys.map (fun k => (k, grp k))))).map
          (fun m => cell m r c)
        = if ∀ k ∈ keys, (j_prime elle wop (grp k) (grp k)).isSome then
            some (if c = r ∧ r ∈ keys then j_prime elle wop (grp r) (grp r) else none)
          else none := by
  intro keys
  induction keys with
  | nil => simp [calcData, cell, lookupStr]
  | cons k ks ih =>
    rw [List.map_cons, List.zip_cons_cons]
    cases hk : j_prime elle wop (grp k) (grp k) with
    | none =>
      rw [calcData_cons_none1 hk, if_neg]
      · rfl
      · intro hall
        have h := hall k (List.mem_cons_self k ks)
        rw [hk] at h
        simp at h
    | some v =>
      cases hrest : calcData elle wop
          ((ks.map (fun k => (k, grp k))).zip (ks.map (fun k => (k, grp k)))) with
      | none =>
        rw [hrest] at ih
        have hks : ¬ ∀ k' ∈ ks, (j_prime elle wop (grp k') (grp k')).isSome := by
          intro hall
          rw [if_pos hall] at ih
          exact Option.noConfusion ih
        rw [calcData_cons_none2 hrest, if_neg]
        · rfl
        · intro hall
          exact hks fun k' hk' => hall k' (List.mem_cons_of_mem _ hk')
      | some m =>
        rw [hrest] at ih
        rw [Option.map_some'] at ih
        have hallks : ∀ k' ∈ ks, (j_prime elle wop (grp k') (grp k')).isSome := by
          by_contra hcon
          rw [if_neg hcon] at ih
          exact Option.noConfusion ih
        rw [if_pos hallks] at ih
        have hcm : cell m r c
            = if c = r ∧ r ∈ ks then j_prime elle wop (grp r) (grp r) else none :=
          Option.some.inj ih
        rw [calcData_cons_some hk hrest, if_pos]
        · rw [Option.map_some', cell_cons]
          by_cases hkr : k = r
          · rw [if_pos hkr, lookupStr_singleton]
            by_cases hck : k = c
            · rw [if_pos hck,
                if_pos ⟨hck.symm.trans hkr, by rw [← hkr]; exact List.mem_cons_self k ks⟩,
                ← hkr, hk]
            · rw [if_neg hck, if_neg (fun hand => hck (hkr.trans hand.1.symm))]
          · rw [if_neg hkr, hcm]
            have hmem : (c = r ∧ r ∈ k :: ks) ↔ (c = r ∧ r ∈ ks) := by
              simp only [List.mem_cons]
              constructor
              · rintro ⟨hcr, rfl | hr⟩
                · exact absurd rfl hkr
                · exact ⟨hcr, hr⟩
              · rintro ⟨hcr, hr⟩
                exact ⟨hcr, Or.inr hr⟩
            by_cases hcond : c = r ∧ r ∈ ks
            · rw [if_pos hcond, if_pos (hmem.mpr hcond)]
            · rw [if_neg hcond, if_neg (fun h => hcond (hmem.mp h))]
        · intro k' hk'
          rcases List.mem_cons.mp hk' with rfl | hk'
          · rw [hk]
            rfl
          · exact hallks k' hk'

/-- Congruence for `ite` that is agnostic about the decidability instances on
the two sides. -/
theorem iteCongr {α : Type} {p q : Prop} {i1 : Decidable p} {i2 : Decidable q} {x y u v : α}
    (h1 : p ↔ q) (h2 : x = u) (h3 : y = v) : @ite α p i1 x y = @ite α q i2 u v := by
  by_cases hp : p
  · rw [if_pos hp, if_pos (h1.mp hp)]
    exact h2
  · rw [if_neg hp, if_neg (fun hq => hp (h1.mpr hq))]
    exact h3

/-- Cell-level characterization of `calc` on the actual grouped input. -/
theorem calcMatrix_cell_char (elle : ℝ → ℝ)
    (wop : List AbstractHit → List AbstractHit → List (ℝ × ℝ))
    (hits : List AbstractHit) (r c : String) :
    (calcMatrix elle wop hits).map (fun m => cell m r c)
      = if ∀ k ∈ hits.map (·.origin_inchikey),
            (j_prime elle wop (hits.filter (fun h => h.origin_inchikey = k))
              (hits.filter (fun h => h.origin_inchikey = k))).isSome then
          some (if c = r ∧ r ∈ hits.map (·.origin_inchikey) then
              j_prime elle wop (hits.filter (fun h => h.origin_inchikey = r))
                (hits.filter (fun h => h.origin_inchikey = r))
            else none)
        else none := by
  have h := calcData_char elle wop
      (fun k => hits.filter (fun h => h.origin_inchikey = k)) r c
      (dedupKeys (hits.map (·.origin_inchikey)))
  refine h.trans (iteCongr ?_ (congrArg some (iteCongr ?_ rfl rfl)) rfl)
  · exact ⟨fun hall k hk => hall k (mem_dedupKeys.mpr hk),
      fun hall k hk => hall k (mem_dedupKeys.mp hk)⟩
  · exact and_congr Iff.rfl mem_dedupKeys

theorem wopAll_perm : ∀ l1 l2 l1' l2' : List AbstractHit,
    l1.Perm l1' → l2.Perm l2' → (wopAll l1 l2).Perm (wopAll l1' l2') :=
  fun _ _ _ _ p1 p2 => (p1.product p2).map _

/-- C8: concordance is order-independent.  Provided the Pairwise Evidence
Extractor respects reordering (the spec defines it as producing the set of
matched pairs), permuting the hit collection handed to `calc` leaves every
cell of the resulting matrix (and its error/success status) unchanged, and
permuting either argument of `_j_prime` leaves the score unchanged. -/
theorem c8_order_independence (elle : ℝ → ℝ)
    (wop : List AbstractHit → List AbstractHit → List (ℝ × ℝ))
    (hwop : ∀ l1 l2 l1' l2' : List AbstractHit,
      l1.Perm l1' → l2.Perm l2' → (wop l1 l2).Perm (wop l1' l2'))
    (hits hits' h1 h1' h2 h2' : List AbstractHit)
    (hp : hits.Perm hits') (hp1 : h1.Perm h1') (hp2 : h2.Perm h2') :
    j_prime elle wop h1 h2 = j_prime elle wop h1' h2'
    ∧ ∀ r c, (calcMatrix elle wop hits).map (fun m => cell m r c)
        = (calcMatrix elle wop hits').map (fun m => cell m r c) := by
  refine ⟨j_prime_perm elle wop hwop hp1 hp2, fun r c => ?_⟩
  rw [calcMatrix_cell_char, calcMatrix_cell_char]
  have hmem : ∀ a : String,
      a ∈ hits.map (·.origin_inchikey) ↔ a ∈ hits'.map (·.origin_inchikey) :=
    fun a => (hp.map _).mem_iff
  have hjp : ∀ k : String,
      j_prime elle wop (hits.filter (fun h => h.origin_inchikey = k))
          (hits.filter (fun h => h.origin_inchikey = k))
        = j_prime elle wop (hits'.filter (fun h => h.origin_inchikey = k))
            (hits'.filter (fun h => h.origin_inchikey = k)) :=
    fun k => j_prime_perm elle wop hwop (hp.filter _) (hp.filter _)
  simp only [hjp, hmem]
  exact iteCongr Iff.rfl rfl rfl

/-- Witness for C8: swapping the two hits of entity A (and swapping the two
entities in the matrix input) changes nothing. -/
theorem c8_order_independence_witness :
    j_prime elle0 wopAll [hitA, hitA4] [hitB] = j_prime elle0 wopAll [hitA4, hitA] [hitB]
    ∧ (calcMatrix elle0 wopAll [hitA, hitB]).map (fun m => cell m "A" "B")
        = (calcMatrix elle0 wopAll [hitB, hitA]).map (fun m => cell m "A" "B") := by
  have h := c8_order_independence elle0 wopAll wopAll_perm [hitA, hitB] [hitB, hitA]
    [hitA, hitA4] [hitA4, hitA] [hitB] [hitB]
    (List.Perm.swap hitB hitA []) (List.Perm.swap hitA4 hitA []) (List.Perm.refl [hitB])
  exact ⟨h.1, h.2 "A" "B"⟩

end Mandos

end
